import Mathlib

/-!
Verification of the PDF-to-blocks chat bot (src/bot.py).

The development shallowly embeds the pure content of the two handlers
`handle_pdf` and `download_word_callback` plus `start_over_callback`:

* text normalization (the regex pipeline of lines 58-61),
* the per-page extraction loop producing `docx_blocks` (lines 54-76),
* the 4096-character chunked delivery (lines 82-85),
* the per-session storage `context.user_data` (line 79, 107, 143),
* docx assembly with temporary image files (lines 112-127),
* the download / start-over callbacks.

Strings are modelled as `List Char` (Python `str` is a sequence of code
points, as is `List Char`), image payloads as `List Nat` (bytes), and the
built-in Python `hash` as an abstract function `List Nat → Nat`.
-/

namespace PDFBot

/-- Model of a character of the Python regex class backslash-w, restricted to
the ASCII range (letters, digits, underscore); the source patterns of
bot.py line 59 use it only around an ASCII hyphen and newline. -/
def isWordChar (c : Char) : Bool := c.isAlphanum || c == '_'

/-- Model of `re.sub(r"(\w)-\n(\w)", r"\1\2", s)` (bot.py line 59): scan left
to right; each non-overlapping occurrence of word-char, hyphen, newline,
word-char is replaced by the two word characters, and scanning resumes
after the consumed match. -/
def dehyphen : List Char → List Char
  | [] => []
  | [a] => [a]
  | [a, b] => [a, b]
  | [a, b, c] => [a, b, c]
  | a :: b :: c :: d :: rest =>
      if isWordChar a && b == '-' && c == '\n' && isWordChar d then
        a :: d :: dehyphen rest
      else
        a :: dehyphen (b :: c :: d :: rest)

/-- Model of `page_text.replace("\n", " ")` (bot.py line 60). -/
def replaceNewlines (s : List Char) : List Char :=
  s.map fun c => if c == '\n' then ' ' else c

/-- Model of `re.sub(r" {2,}", " ", s)` (bot.py line 61): every maximal run
of two or more spaces collapses to a single space. -/
def collapseSpaces : List Char → List Char
  | [] => []
  | [c] => [c]
  | a :: b :: rest =>
      if a == ' ' && b == ' ' then collapseSpaces (b :: rest)
      else a :: collapseSpaces (b :: rest)

/-- Model of Python `str.strip()` (bot.py line 61): drop leading and trailing
whitespace. -/
def pyStrip (s : List Char) : List Char :=
  ((s.dropWhile Char.isWhitespace).reverse.dropWhile Char.isWhitespace).reverse

/-- The full normalization applied to one page of raw text, in source order
(bot.py lines 59-61): hyphen joining first, then newline replacement, then
space collapsing, then strip. -/
def normalizeText (s : List Char) : List Char :=
  pyStrip (collapseSpaces (replaceNewlines (dehyphen s)))

/-- An embedded image as returned by `pdf_doc.extract_image` (bot.py
lines 70-72): payload bytes and format extension. -/
structure Image where
  bytes : List Nat
  ext : List Char
deriving DecidableEq

/-- One page of the input PDF. `rawText` is the result of
`reader.pages[i].extract_text()` (bot.py line 58): `none` models both an
exception raised during extraction and a `None` return, which the code
maps to the empty string (`or ""` plus the `except: pass`). `images` is
the structural order of `pdf_doc[i].get_images(full=True)`. -/
structure Page where
  rawText : Option (List Char)
  images : List Image
deriving DecidableEq

/-- A PDF is its list of pages in document order (`range(num_pages)`). -/
abbrev PDFDoc := List Page

/-- One entry of `docx_blocks` (bot.py lines 65 and 75): a tagged pair,
either `("text", page_text)` or `("image", (img_bytes, ext))`. -/
inductive Block where
  | text (s : List Char)
  | image (bytes : List Nat) (ext : List Char)
deriving DecidableEq

/-- Whether a block is a text block. -/
def Block.isText : Block → Bool
  | .text _ => true
  | .image _ _ => false

/-- Normalized text of a page, with the failure-to-empty defaulting of
bot.py lines 56-63. -/
def pageText (p : Page) : List Char := normalizeText (p.rawText.getD [])

/-- Text blocks contributed by one page: one block when the normalized text
is non-empty (`if page_text:`), none otherwise (bot.py lines 64-65). -/
def pageTextBlocks (p : Page) : List Block :=
  if pageText p = [] then [] else [Block.text (pageText p)]

/-- The inner image loop of bot.py lines 68-76: for each image in structural
order, if its hash is not in `sent_hashes`, emit an Image block and add the
hash; otherwise skip. Returns the emitted blocks and the updated hash set
(modelled as a list with membership as the set operation). -/
def extractImages (hash : List Nat → Nat) : List Image → List Nat → List Block × List Nat
  | [], seen => ([], seen)
  | img :: rest, seen =>
      if hash img.bytes ∈ seen then extractImages hash rest seen
      else
        let r := extractImages hash rest (hash img.bytes :: seen)
        (Block.image img.bytes img.ext :: r.1, r.2)

/-- The page loop of bot.py lines 54-76 starting at page index `i`, threading
`sent_hashes` through: each page appends its text block (if any) and then
its fresh image blocks. Each emitted block is annotated with the index of
the page that produced it (ghost information recording the position of the
`docx_blocks.append` call; the unannotated code value is recovered by
`extract` below). -/
def extractPagesFrom (hash : List Nat → Nat) : Nat → List Page → List Nat → List (Nat × Block) × List Nat
  | _, [], seen => ([], seen)
  | i, p :: ps, seen =>
      let ib := extractImages hash p.images seen
      let rest := extractPagesFrom hash (i + 1) ps ib.2
      ((pageTextBlocks p ++ ib.1).map (fun b => (i, b)) ++ rest.1, rest.2)

/-- The page-annotated extraction run: `sent_hashes = set()` starts empty
(bot.py line 51) and pages are processed from index 0. -/
def extractAnnot (hash : List Nat → Nat) (d : PDFDoc) : List (Nat × Block) :=
  (extractPagesFrom hash 0 d []).1

/-- The `docx_blocks` list produced by one run of `handle_pdf` on `d`
(bot.py lines 50-76): the annotated extraction with the ghost page
indices dropped. -/
def extract (hash : List Nat → Nat) (d : PDFDoc) : List Block :=
  (extractAnnot hash d).map Prod.snd

/-- The chunk loop of bot.py lines 84-85: `for i in range(0, len(t), 4096)`
sends `t[i:i+4096]`; successive slices of at most 4096 characters, none for
the empty string. -/
def chunkText : List Char → List (List Char)
  | [] => []
  | c :: rest => (c :: rest).take 4096 :: chunkText ((c :: rest).drop 4096)
termination_by s => s.length
decreasing_by simp; omega

/-- An outgoing transport call made by `handle_pdf` (bot.py lines 33-102). -/
inductive OutMsg where
  | message (text : List Char)
  | photo (bytes : List Nat)
  | promptMsg (text : List Char)
deriving DecidableEq

/-- The delivery loop of bot.py lines 82-91: a text block is sent as its
4096-character chunks in order, an image block as one photo of its raw
bytes. -/
def deliveryMsgs (blocks : List Block) : List OutMsg :=
  blocks.flatMap fun b =>
    match b with
    | .text s => (chunkText s).map OutMsg.message
    | .image bytes _ => [OutMsg.photo bytes]

/-- The per-session state `context.user_data`: at most one stored block
sequence under the key last_pdf_blocks. `none` models an absent key. -/
structure Session where
  lastPdfBlocks : Option (List Block)
deriving DecidableEq

/-- Message of bot.py line 33. -/
def processingMsg : List Char := "⏳ Обрабатываю файл, это может занять несколько секунд...".toList

/-- Rejection message of bot.py line 39. -/
def notPdfMsg : List Char := "Это не PDF.".toList

/-- Prompt message of bot.py line 100. -/
def readyMsg : List Char := "Ваш текст готов! Выберите действие ниже:".toList

/-- Model of `handle_pdf` (bot.py lines 32-102). `mime` is the upload
document MIME type and `fname` its original filename, used by the code
only to pick the transient download path under /tmp (line 43); `d` is the
parsed content of the downloaded PDF. A non-PDF MIME type is rejected
after the processing notice, leaving the session untouched; otherwise the
extraction result replaces the stored block sequence (line 79) and is
delivered followed by the action prompt. -/
def handleUpload (hash : List Nat → Nat) (sess : Session) (mime : List Char)
    (fname : List Char) (d : PDFDoc) : Session × List OutMsg :=
  if mime ≠ "application/pdf".toList then
    (sess, [OutMsg.message processingMsg, OutMsg.message notPdfMsg])
  else
    let blocks := extract hash d
    let _ := "/tmp/".toList ++ fname
    ({ lastPdfBlocks := some blocks },
      OutMsg.message processingMsg :: deliveryMsgs blocks ++ [OutMsg.promptMsg readyMsg])

/-- A paragraph-level element of the assembled docx document: a text
paragraph from `doc.add_paragraph` or an embedded picture from
`doc.add_picture`. -/
inductive Para where
  | text (s : List Char)
  | picture (bytes : List Nat)
deriving DecidableEq

/-- Result of the assembly loop of bot.py lines 112-124: the document
content, plus a ledger of the temporary image files created
(`NamedTemporaryFile(delete=False)`, recorded as payload and suffix
extension) and of those deleted. The code never calls any deletion
primitive (`delete=False` suppresses removal on close and there is no
`os.remove`/`os.unlink`), so the deleted ledger stays empty. -/
structure AssemblyResult where
  doc : List Para
  tempsCreated : List (List Nat × List Char)
  tempsDeleted : List (List Nat × List Char)
deriving DecidableEq

/-- The assembly loop of bot.py lines 112-124. `embedOk` abstracts whether
`doc.add_picture` succeeds on the given bytes; on failure the exception is
caught, a warning is logged and the image is skipped. Each image block
writes a temporary file before the embedding attempt; no branch deletes
it. -/
def assembleBlocks (embedOk : List Nat → Bool) : List Block → AssemblyResult
  | [] => ⟨[], [], []⟩
  | Block.text s :: rest =>
      let r := assembleBlocks embedOk rest
      ⟨Para.text s :: r.doc, r.tempsCreated, r.tempsDeleted⟩
  | Block.image bytes ext :: rest =>
      let r := assembleBlocks embedOk rest
      ⟨(if embedOk bytes then [Para.picture bytes] else []) ++ r.doc,
        (bytes, ext) :: r.tempsCreated, r.tempsDeleted⟩

/-- Message of bot.py line 110. -/
def noDataMsg : List Char := "Нет данных для генерации Word.".toList

/-- Observable outcome of `download_word_callback`: the text set by
`edit_message_text` (empty-state branch), and the document content and
attachment filename passed to `send_document` (success branch). -/
structure DownloadOut where
  editText : Option (List Char)
  sentDocContent : Option (List Para)
  sentDocName : Option (List Char)
  tempsCreated : List (List Nat × List Char)
  tempsDeleted : List (List Nat × List Char)
deriving DecidableEq

/-- Model of `download_word_callback` (bot.py lines 104-138): read the
stored blocks with default `[]` (line 107); if empty, edit the prompt to
the no-data message and send nothing; otherwise assemble the document and
send it under the fixed filename converted.docx (line 132). The handler
never writes `context.user_data`, so the session passes through
unchanged. -/
def downloadWord (embedOk : List Nat → Bool) (sess : Session) : Session × DownloadOut :=
  let blocks := sess.lastPdfBlocks.getD []
  if blocks = [] then
    (sess, ⟨some noDataMsg, none, none, [], []⟩)
  else
    let r := assembleBlocks embedOk blocks
    (sess, ⟨none, some r.doc, some ("converted.docx".toList), r.tempsCreated, r.tempsDeleted⟩)

/-- Message of bot.py line 147. -/
def newPdfMsg : List Char := "🔄 Пришлите новый PDF-файл сюда.".toList

/-- Model of `start_over_callback` (bot.py lines 140-148):
`context.user_data.pop('last_pdf_blocks', None)` removes the stored
sequence. -/
def startOver (sess : Session) : Session × List OutMsg :=
  let _ := sess
  (⟨none⟩, [OutMsg.message newPdfMsg])

/-- All images of the pages, each annotated with its page index (pages
numbered from `i`), in structural document order: page order first, then
the order `get_images` lists them within a page. This is the occurrence
list the deduplication of bot.py lines 68-76 walks. -/
def annotImages : Nat → List Page → List (Nat × Image)
  | _, [] => []
  | i, p :: ps => p.images.map (fun img => (i, img)) ++ annotImages (i + 1) ps

/-- Spec-side reference for the deduplication (written from the words of the
spec, to be compared with the extraction): keep exactly the first
occurrence of each image content not in `seen`, drop every later
duplicate; return the kept occurrences and the final seen set of
contents. -/
def firstOccS : List (List Nat) → List (Nat × Image) → List (Nat × Image) × List (List Nat)
  | seen, [] => ([], seen)
  | seen, a :: rest =>
      if a.2.bytes ∈ seen then firstOccS seen rest
      else
        let r := firstOccS (a.2.bytes :: seen) rest
        (a :: r.1, r.2)

/-- Pairwise injectivity of the hash on a given list of byte strings: no
collision among the listed contents. -/
def PInj (hash : List Nat → Nat) (A : List (List Nat)) : Prop :=
  ∀ a ∈ A, ∀ b ∈ A, hash a = hash b → a = b

instance (hash : List Nat → Nat) (A : List (List Nat)) : Decidable (PInj hash A) := by
  unfold PInj; infer_instance

/-- The image blocks of an annotated block list, as annotated images. -/
def imageAnnotsOf (l : List (Nat × Block)) : List (Nat × Image) :=
  l.filterMap fun pb =>
    match pb.2 with
    | .image b e => some (pb.1, ⟨b, e⟩)
    | .text _ => none

/-- Proof-side restatement of the image loop with the seen set kept as the
byte strings themselves instead of their hashes; equal to `extractImages`
whenever the hash has no collision among the involved contents. -/
def refImages : List Image → List (List Nat) → List Block × List (List Nat)
  | [], seen => ([], seen)
  | img :: rest, seen =>
      if img.bytes ∈ seen then refImages rest seen
      else
        let r := refImages rest (img.bytes :: seen)
        (Block.image img.bytes img.ext :: r.1, r.2)

/-- Proof-side restatement of the page loop over byte-string seen sets. -/
def refPagesFrom : Nat → List Page → List (List Nat) → List (Nat × Block) × List (List Nat)
  | _, [], seen => ([], seen)
  | i, p :: ps, seen =>
      let ib := refImages p.images seen
      let rest := refPagesFrom (i + 1) ps ib.2
      ((pageTextBlocks p ++ ib.1).map (fun b => (i, b)) ++ rest.1, rest.2)

/-- Ordered text contents of the paragraphs of an assembled document
(conceptual re-reading of the docx: picture paragraphs carry no text). -/
def paraTexts (doc : List Para) : List (List Char) :=
  doc.filterMap fun p =>
    match p with
    | .text s => some s
    | .picture _ => none

/-- Ordered text contents of the text blocks of a block sequence. -/
def blockTexts (blocks : List Block) : List (List Char) :=
  blocks.filterMap fun b =>
    match b with
    | .text s => some s
    | .image _ _ => none

/-- Characterization of the text blocks produced by the page loop starting
at index `i`: one annotated text block per page with non-empty normalized
text, in page order (proof-side; proved equal to the filtered
extraction). -/
def textAnnotsSpec : Nat → List Page → List (Nat × Block)
  | _, [] => []
  | i, p :: ps =>
      (if pageText p = [] then [] else [(i, Block.text (pageText p))]) ++
        textAnnotsSpec (i + 1) ps

/-! Lemmas about the chunking of delivered text. -/

lemma chunkText_nil : chunkText [] = [] := by rw [chunkText]

lemma chunkText_cons_eq (s : List Char) (h : s ≠ []) :
    chunkText s = s.take 4096 :: chunkText (s.drop 4096) := by
  cases s with
  | nil => exact absurd rfl h
  | cons c rest => rw [chunkText]

lemma chunkText_length_le (s : List Char) : ∀ c ∈ chunkText s, c.length ≤ 4096 := by
  induction s using chunkText.induct with
  | case1 => intro c hc; simp [chunkText] at hc
  | case2 c rest ih =>
      intro x hx
      rw [chunkText] at hx
      rcases List.mem_cons.mp hx with hx2 | hx2
      · subst hx2; simp
      · exact ih x hx2

lemma chunkText_join (s : List Char) : (chunkText s).flatten = s := by
  induction s using chunkText.induct with
  | case1 => simp [chunkText]
  | case2 c rest ih =>
      rw [chunkText]
      simp only [List.flatten_cons, ih, List.take_append_drop]

/-- C2. Delivery splits every text block into consecutive chunks of at most
4096 characters, sent in order as separate messages, whose concatenation
is the original text; a text of exactly 10000 characters gives exactly the
chunk sizes 4096, 4096, 1808. -/
theorem text_chunking (s : List Char) :
    (∀ c ∈ chunkText s, c.length ≤ 4096) ∧
    (chunkText s).flatten = s ∧
    deliveryMsgs [Block.text s] = (chunkText s).map OutMsg.message ∧
    (s.length = 10000 → (chunkText s).map List.length = [4096, 4096, 1808]) := by
  refine ⟨chunkText_length_le s, chunkText_join s, by simp [deliveryMsgs], ?_⟩
  intro h
  have h1 : s ≠ [] := by intro hn; rw [hn] at h; simp at h
  rw [chunkText_cons_eq s h1]
  have l2 : (s.drop 4096).length = 5904 := by simp [h]
  have h2 : s.drop 4096 ≠ [] := by
    intro hn; rw [hn] at l2; simp at l2
  rw [chunkText_cons_eq _ h2]
  have l3 : ((s.drop 4096).drop 4096).length = 1808 := by simp [h]
  have h3 : (s.drop 4096).drop 4096 ≠ [] := by
    intro hn; rw [hn] at l3; simp at l3
  rw [chunkText_cons_eq _ h3]
  have h4 : ((s.drop 4096).drop 4096).drop 4096 = [] := by
    apply List.drop_eq_nil_of_le; omega
  rw [h4, chunkText_nil]
  simp only [List.map_cons, List.map_nil, List.length_take, h, l2, l3]
  norm_num

/-- Witness for C2 at a concrete 10000-character text. -/
theorem text_chunking_witness :
    (chunkText (List.replicate 10000 'a')).map List.length = [4096, 4096, 1808] :=
  (text_chunking (List.replicate 10000 'a')).2.2.2 (by rw [List.length_replicate])

/-- C5. A non-PDF upload sends the user-visible rejection message (after the
processing notice) and returns without touching the stored block sequence:
the session after the event is the session before it. -/
theorem nonpdf_rejected (hash : List Nat → Nat) (sess : Session) (mime fname : List Char)
    (d : PDFDoc) (h : mime ≠ "application/pdf".toList) :
    (handleUpload hash sess mime fname d).1 = sess ∧
    (handleUpload hash sess mime fname d).2 =
      [OutMsg.message processingMsg, OutMsg.message notPdfMsg] := by
  rw [handleUpload, if_pos h]
  exact ⟨rfl, rfl⟩

/-- Witness for C5: a png upload into a session holding one block. -/
theorem nonpdf_rejected_witness :
    (handleUpload (fun b => b.sum) ⟨some [Block.text ("x".toList)]⟩ ("image/png".toList)
        ("a.png".toList) []).1 = ⟨some [Block.text ("x".toList)]⟩ ∧
    (handleUpload (fun b => b.sum) ⟨some [Block.text ("x".toList)]⟩ ("image/png".toList)
        ("a.png".toList) []).2 =
      [OutMsg.message processingMsg, OutMsg.message notPdfMsg] :=
  nonpdf_rejected (fun b => b.sum) ⟨some [Block.text ("x".toList)]⟩ ("image/png".toList)
    ("a.png".toList) [] (by decide)

/-- C6. The download action on an empty or absent stored sequence edits the
prompt to the no-data message and sends no document; and after a start
over, a download without a new upload always takes this branch. -/
theorem download_empty_no_file (embedOk : List Nat → Bool) (sess : Session)
    (h : sess.lastPdfBlocks = none ∨ sess.lastPdfBlocks = some []) :
    ((downloadWord embedOk sess).2.editText = some noDataMsg ∧
      (downloadWord embedOk sess).2.sentDocContent = none ∧
      (downloadWord embedOk sess).2.sentDocName = none) ∧
    ∀ s2 : Session,
      (downloadWord embedOk (startOver s2).1).2.editText = some noDataMsg ∧
      (downloadWord embedOk (startOver s2).1).2.sentDocContent = none ∧
      (downloadWord embedOk (startOver s2).1).2.sentDocName = none := by
  constructor
  · rcases h with h | h <;> simp [downloadWord, h]
  · intro s2; simp [downloadWord, startOver]

/-- Witness for C6 at the fresh session with no stored sequence. -/
theorem download_empty_no_file_witness :
    ((downloadWord (fun _ => true) ⟨none⟩).2.editText = some noDataMsg ∧
      (downloadWord (fun _ => true) ⟨none⟩).2.sentDocContent = none ∧
      (downloadWord (fun _ => true) ⟨none⟩).2.sentDocName = none) ∧
    (downloadWord (fun _ => true) (startOver ⟨some [Block.text ("x".toList)]⟩).1).2.sentDocName
      = none :=
  ⟨(download_empty_no_file (fun _ => true) ⟨none⟩ (Or.inl rfl)).1,
    ((download_empty_no_file (fun _ => true) ⟨none⟩ (Or.inl rfl)).2
      ⟨some [Block.text ("x".toList)]⟩).2.2⟩

/-- C7 is wrong about the code: `NamedTemporaryFile(delete=False)` (bot.py
line 118) suppresses deletion on close and no branch of the assembly ever
removes the file, so a temporary file created for an image block remains
after assembly on every path, the embedding-failure path included. This
theorem evaluates the assembly at a one-image sequence whose embedding
fails: a temporary file is created and the deletion ledger is empty, and
in general no run of the assembly ever deletes a temporary file. -/
theorem temp_image_file_leaks :
    ((assembleBlocks (fun _ => false) [Block.image [1] ("png".toList)]).tempsCreated =
        [([1], "png".toList)] ∧
      (assembleBlocks (fun _ => false) [Block.image [1] ("png".toList)]).tempsDeleted = []) ∧
    ∀ (embedOk : List Nat → Bool) (blocks : List Block),
      (assembleBlocks embedOk blocks).tempsDeleted = [] := by
  refine ⟨⟨rfl, rfl⟩, fun embedOk blocks => ?_⟩
  induction blocks with
  | nil => rfl
  | cons b rest ih => cases b <;> simp [assembleBlocks, ih]

/-- C8. Round-trip of text through assembly: each text block becomes exactly
one text paragraph, in block order, so the ordered text contents read back
from the assembled document equal the ordered text contents of the input
blocks, whatever the image embedding outcomes. -/
theorem assembly_text_round_trip (embedOk : List Nat → Bool) (blocks : List Block) :
    paraTexts (assembleBlocks embedOk blocks).doc = blockTexts blocks := by
  induction blocks with
  | nil => rfl
  | cons b rest ih =>
      cases b with
      | text s => simp [assembleBlocks, paraTexts, blockTexts] at ih ⊢; exact ih
      | image bytes ext =>
          by_cases h : embedOk bytes <;>
            simp [assembleBlocks, paraTexts, blockTexts, h] at ih ⊢ <;> exact ih

/-- C9. A successful download always attaches the document under the fixed
name converted.docx, for any stored sequence and in particular whatever
the filename of the originally uploaded PDF was. -/
theorem download_filename_fixed (embedOk : List Nat → Bool) (sess : Session)
    (h : sess.lastPdfBlocks.getD [] ≠ []) :
    (downloadWord embedOk sess).2.sentDocName = some ("converted.docx".toList) ∧
    ∀ (hash : List Nat → Nat) (s0 : Session) (fname : List Char) (d : PDFDoc),
      extract hash d ≠ [] →
      (downloadWord embedOk
          (handleUpload hash s0 ("application/pdf".toList) fname d).1).2.sentDocName =
        some ("converted.docx".toList) := by
  constructor
  · rw [downloadWord]; simp [h]
  · intro hash s0 fname d hd
    rw [handleUpload, if_neg (by simp)]
    rw [downloadWord]
    simp [hd]

/-- Witness for C9: a stored one-block sequence, and an upload named
original.pdf whose extraction is non-empty. -/
theorem download_filename_fixed_witness :
    (downloadWord (fun _ => true) ⟨some [Block.text ("x".toList)]⟩).2.sentDocName =
      some ("converted.docx".toList) ∧
    (downloadWord (fun _ => true)
        (handleUpload (fun b => b.sum) ⟨none⟩ ("application/pdf".toList)
          ("original.pdf".toList) [⟨some ("hi".toList), []⟩]).1).2.sentDocName =
      some ("converted.docx".toList) :=
  ⟨(download_filename_fixed (fun _ => true) ⟨some [Block.text ("x".toList)]⟩ (by decide)).1,
    (download_filename_fixed (fun _ => true) ⟨some [Block.text ("x".toList)]⟩ (by decide)).2
      (fun b => b.sum) ⟨none⟩ ("original.pdf".toList) [⟨some ("hi".toList), []⟩] (by decide)⟩

/-! Lemmas characterizing the text blocks of the extraction. -/

lemma extractImages_no_text (hash : List Nat → Nat) :
    ∀ (imgs : List Image) (seen : List Nat) (b : Block),
      b ∈ (extractImages hash imgs seen).1 → b.isText = false := by
  intro imgs
  induction imgs with
  | nil => intro seen b hb; simp [extractImages] at hb
  | cons img rest ih =>
      intro seen b hb
      rw [extractImages] at hb
      by_cases h : hash img.bytes ∈ seen
      · rw [if_pos h] at hb; exact ih seen b hb
      · rw [if_neg h] at hb
        rcases List.mem_cons.mp hb with hb2 | hb2
        · subst hb2; rfl
        · exact ih _ b hb2

lemma filter_text_extractPagesFrom (hash : List Nat → Nat) :
    ∀ (ps : List Page) (i : Nat) (seen : List Nat),
      ((extractPagesFrom hash i ps seen).1.filter fun pb => pb.2.isText) =
        textAnnotsSpec i ps := by
  intro ps
  induction ps with
  | nil => intro i seen; rfl
  | cons p ps ih =>
      intro i seen
      rw [extractPagesFrom, textAnnotsSpec]
      dsimp only
      rw [List.filter_append, List.map_append, List.filter_append, ih]
      have himg : ((extractImages hash p.images seen).1.map (fun b => (i, b))).filter
          (fun pb => pb.2.isText) = [] := by
        rw [List.filter_eq_nil_iff]
        intro pb hpb
        rcases List.mem_map.mp hpb with ⟨b, hb, hbe⟩
        subst hbe
        simp [extractImages_no_text hash p.images seen b hb]
      rw [himg, List.append_nil]
      congr 1
      rw [pageTextBlocks]
      split
      · rfl
      · simp [Block.isText]

lemma textAnnotsSpec_mem (j : Nat) (b : Block) :
    ∀ (ps : List Page) (i : Nat), (j, b) ∈ textAnnotsSpec i ps →
      ∃ k, j = i + k ∧ k < ps.length ∧
        b = Block.text (pageText (ps.getD k ⟨none, []⟩)) ∧
        pageText (ps.getD k ⟨none, []⟩) ≠ [] := by
  intro ps
  induction ps with
  | nil => intro i h; simp [textAnnotsSpec] at h
  | cons p ps ih =>
      intro i h
      rw [textAnnotsSpec] at h
      rcases List.mem_append.mp h with h1 | h1
      · refine ⟨0, ?_⟩
        by_cases hp : pageText p = []
        · rw [if_pos hp] at h1; simp at h1
        · rw [if_neg hp] at h1
          rcases List.mem_singleton.mp h1 with h2
          have hj : j = i := congrArg Prod.fst h2
          have hb : b = Block.text (pageText p) := congrArg Prod.snd h2
          exact ⟨by omega, by simp, by simpa using hb, by simpa using hp⟩
      · rcases ih (i + 1) h1 with ⟨k, hk1, hk2, hk3, hk4⟩
        refine ⟨k + 1, by omega, by simp; omega, ?_, ?_⟩
        · simpa [List.getD_cons_succ] using hk3
        · simpa [List.getD_cons_succ] using hk4

lemma textAnnotsSpec_mem_intro :
    ∀ (ps : List Page) (i k : Nat), k < ps.length →
      pageText (ps.getD k ⟨none, []⟩) ≠ [] →
      (i + k, Block.text (pageText (ps.getD k ⟨none, []⟩))) ∈ textAnnotsSpec i ps := by
  intro ps
  induction ps with
  | nil => intro i k hk; simp at hk
  | cons p ps ih =>
      intro i k hk hne
      rw [textAnnotsSpec]
      cases k with
      | zero =>
          apply List.mem_append_left
          simp only [List.getD_cons_zero] at hne ⊢
          rw [if_neg hne]
          simp
      | succ k =>
          apply List.mem_append_right
          have := ih (i + 1) k (by simp at hk; omega) (by simpa [List.getD_cons_succ] using hne)
          have harith : i + 1 + k = i + (k + 1) := by omega
          rw [harith] at this
          simpa [List.getD_cons_succ] using this

lemma textAnnotsSpec_length : ∀ (ps : List Page) (i : Nat),
    (textAnnotsSpec i ps).length ≤ ps.length := by
  intro ps
  induction ps with
  | nil => intro i; simp [textAnnotsSpec]
  | cons p ps ih =>
      intro i
      rw [textAnnotsSpec, List.length_append, List.length_cons]
      have h1 : (if pageText p = [] then ([] : List (Nat × Block))
          else [(i, Block.text (pageText p))]).length ≤ 1 := by
        split <;> simp
      have := ih (i + 1)
      omega

lemma textAnnotsSpec_pages_mono : ∀ (ps : List Page) (i : Nat),
    List.Pairwise (fun a b => a ≤ b) ((textAnnotsSpec i ps).map Prod.fst) := by
  intro ps
  induction ps with
  | nil => intro i; simp [textAnnotsSpec]
  | cons p ps ih =>
      intro i
      rw [textAnnotsSpec, List.map_append]
      rw [List.pairwise_append]
      refine ⟨?_, ih (i + 1), ?_⟩
      · split <;> simp
      · intro x hx y hy
        have hxi : x = i := by
          by_cases hp : pageText p = []
          · rw [if_pos hp] at hx; simp at hx
          · rw [if_neg hp] at hx; simpa using hx
        rcases List.mem_map.mp hy with ⟨pb, hpb, he⟩
        rcases textAnnotsSpec_mem pb.1 pb.2 ps (i + 1) hpb with ⟨k, hk1, _, _, _⟩
        subst he; omega

lemma textAnnotsSpec_page_count : ∀ (ps : List Page) (i j : Nat),
    ((textAnnotsSpec i ps).filter fun pb => pb.1 == j).length ≤ 1 := by
  intro ps
  induction ps with
  | nil => intro i j; simp [textAnnotsSpec]
  | cons p ps ih =>
      intro i j
      rw [textAnnotsSpec, List.filter_append, List.length_append]
      by_cases hp : pageText p = []
      · rw [if_pos hp]
        simpa using ih (i + 1) j
      · rw [if_neg hp]
        by_cases hij : i = j
        · have hrest : ((textAnnotsSpec (i + 1) ps).filter fun pb => pb.1 == j) = [] := by
            rw [List.filter_eq_nil_iff]
            intro pb hpb
            rcases textAnnotsSpec_mem pb.1 pb.2 ps (i + 1) hpb with ⟨k, hk1, _, _, _⟩
            simp only [beq_iff_eq]
            omega
          rw [hrest]
          simp [hij]
        · have hhead : ([(i, Block.text (pageText p))].filter fun pb => pb.1 == j) = [] := by
            simp [hij]
          rw [hhead]
          simpa using ih (i + 1) j

/-- C10. The download action passes the session through unchanged on both of
its branches, so a repeated download without a new upload reads the same
stored blocks and produces the same observable output. -/
theorem download_preserves_session (embedOk : List Nat → Bool) (sess : Session) :
    (downloadWord embedOk sess).1 = sess ∧
    (downloadWord embedOk ((downloadWord embedOk sess).1)).2 = (downloadWord embedOk sess).2 := by
  have h1 : (downloadWord embedOk sess).1 = sess := by
    rw [downloadWord]; dsimp only; split <;> rfl
  exact ⟨h1, by rw [h1]⟩

/-! Lemmas for the image deduplication: first the transfer from hash-valued
seen sets to byte-valued seen sets (sound when the hash has no collision
on the involved contents), then the identification of the byte-level
extraction with the spec-side first-occurrence filter. -/

lemma refImages_seen_mem : ∀ (imgs : List Image) (seen : List (List Nat)) (x : List Nat),
    x ∈ (refImages imgs seen).2 → x ∈ seen ∨ ∃ img ∈ imgs, x = img.bytes := by
  intro imgs
  induction imgs with
  | nil => intro seen x hx; exact Or.inl hx
  | cons img rest ih =>
      intro seen x hx
      rw [refImages] at hx
      by_cases h : img.bytes ∈ seen
      · rw [if_pos h] at hx
        rcases ih seen x hx with h1 | ⟨i, hi, he⟩
        · exact Or.inl h1
        · exact Or.inr ⟨i, List.mem_cons_of_mem _ hi, he⟩
      · rw [if_neg h] at hx
        rcases ih (img.bytes :: seen) x hx with h1 | ⟨i, hi, he⟩
        · rcases List.mem_cons.mp h1 with h2 | h2
          · exact Or.inr ⟨img, by simp, h2⟩
          · exact Or.inl h2
        · exact Or.inr ⟨i, List.mem_cons_of_mem _ hi, he⟩

lemma extractImages_eq_ref (hash : List Nat → Nat) (A : List (List Nat))
    (hinj : PInj hash A) :
    ∀ (imgs : List Image) (seen : List (List Nat)),
      (∀ x ∈ seen, x ∈ A) → (∀ img ∈ imgs, img.bytes ∈ A) →
      extractImages hash imgs (seen.map hash) =
        ((refImages imgs seen).1, (refImages imgs seen).2.map hash) := by
  intro imgs
  induction imgs with
  | nil => intro seen _ _; rfl
  | cons img rest ih =>
      intro seen hseen himgs
      have hiff : (hash img.bytes ∈ seen.map hash) ↔ img.bytes ∈ seen := by
        constructor
        · intro hmem
          rcases List.mem_map.mp hmem with ⟨y, hy, hxy⟩
          have hyx : y = img.bytes :=
            hinj y (hseen y hy) img.bytes (himgs img (by simp)) hxy
          rwa [hyx] at hy
        · intro hmem
          exact List.mem_map.mpr ⟨img.bytes, hmem, rfl⟩
      rw [extractImages, refImages]
      by_cases h : img.bytes ∈ seen
      · rw [if_pos (hiff.mpr h), if_pos h]
        exact ih seen hseen (fun i hi => himgs i (List.mem_cons_of_mem _ hi))
      · rw [if_neg (fun hc => h (hiff.mp hc)), if_neg h]
        have hseen2 : ∀ x ∈ img.bytes :: seen, x ∈ A := by
          intro x hx
          rcases List.mem_cons.mp hx with h1 | h1
          · subst h1; exact himgs img (by simp)
          · exact hseen x h1
        have hrec := ih (img.bytes :: seen) hseen2
          (fun i hi => himgs i (List.mem_cons_of_mem _ hi))
        rw [List.map_cons] at hrec
        dsimp only
        rw [hrec]

lemma extractPagesFrom_eq_ref (hash : List Nat → Nat) (A : List (List Nat))
    (hinj : PInj hash A) :
    ∀ (ps : List Page) (i : Nat) (seen : List (List Nat)),
      (∀ x ∈ seen, x ∈ A) → (∀ p ∈ ps, ∀ img ∈ p.images, img.bytes ∈ A) →
      extractPagesFrom hash i ps (seen.map hash) =
        ((refPagesFrom i ps seen).1, (refPagesFrom i ps seen).2.map hash) := by
  intro ps
  induction ps with
  | nil => intro i seen _ _; rfl
  | cons p ps ih =>
      intro i seen hseen hps
      have himg := extractImages_eq_ref hash A hinj p.images seen hseen (hps p (by simp))
      have hseen2 : ∀ x ∈ (refImages p.images seen).2, x ∈ A := by
        intro x hx
        rcases refImages_seen_mem p.images seen x hx with h1 | ⟨img, hi, he⟩
        · exact hseen x h1
        · subst he; exact hps p (by simp) img hi
      have hrest := ih (i + 1) (refImages p.images seen).2 hseen2
        (fun q hq => hps q (List.mem_cons_of_mem _ hq))
      rw [extractPagesFrom, refPagesFrom]
      dsimp only
      rw [himg, hrest]

lemma firstOccS_append : ∀ (l1 l2 : List (Nat × Image)) (seen : List (List Nat)),
    firstOccS seen (l1 ++ l2) =
      ((firstOccS seen l1).1 ++ (firstOccS (firstOccS seen l1).2 l2).1,
        (firstOccS (firstOccS seen l1).2 l2).2) := by
  intro l1
  induction l1 with
  | nil => intro l2 seen; rfl
  | cons a l1 ih =>
      intro l2 seen
      rw [List.cons_append, firstOccS, firstOccS]
      by_cases h : a.2.bytes ∈ seen
      · rw [if_pos h, if_pos h]
        exact ih l2 seen
      · rw [if_neg h, if_neg h]
        dsimp only
        rw [ih l2 (a.2.bytes :: seen)]
        rfl

lemma refImages_firstOcc (i : Nat) : ∀ (imgs : List Image) (seen : List (List Nat)),
    imageAnnotsOf ((refImages imgs seen).1.map (fun b => (i, b))) =
      (firstOccS seen (imgs.map (fun img => (i, img)))).1 ∧
    (refImages imgs seen).2 = (firstOccS seen (imgs.map (fun img => (i, img)))).2 := by
  intro imgs
  induction imgs with
  | nil => intro seen; exact ⟨rfl, rfl⟩
  | cons img rest ih =>
      intro seen
      rw [refImages, List.map_cons, firstOccS]
      by_cases h : img.bytes ∈ seen
      · rw [if_pos h, if_pos h]
        exact ih seen
      · rw [if_neg h, if_neg h]
        dsimp only
        have := ih (img.bytes :: seen)
        constructor
        · rw [List.map_cons]
          simpa [imageAnnotsOf] using this.1
        · exact this.2

lemma imageAnnotsOf_append (l1 l2 : List (Nat × Block)) :
    imageAnnotsOf (l1 ++ l2) = imageAnnotsOf l1 ++ imageAnnotsOf l2 :=
  List.filterMap_append l1 l2 _

lemma imageAnnotsOf_textBlocks (p : Page) (i : Nat) :
    imageAnnotsOf ((pageTextBlocks p).map (fun b => (i, b))) = [] := by
  rw [pageTextBlocks]
  split
  · rfl
  · simp [imageAnnotsOf]

lemma refPages_imageAnnots : ∀ (ps : List Page) (i : Nat) (seen : List (List Nat)),
    imageAnnotsOf (refPagesFrom i ps seen).1 = (firstOccS seen (annotImages i ps)).1 ∧
    (refPagesFrom i ps seen).2 = (firstOccS seen (annotImages i ps)).2 := by
  intro ps
  induction ps with
  | nil => intro i seen; exact ⟨rfl, rfl⟩
  | cons p ps ih =>
      intro i seen
      have h1 := refImages_firstOcc i p.images seen
      constructor
      · rw [refPagesFrom, annotImages]
        dsimp only
        rw [List.map_append, imageAnnotsOf_append, imageAnnotsOf_append,
          imageAnnotsOf_textBlocks, List.nil_append, firstOccS_append]
        rw [h1.1, h1.2, (ih (i + 1) _).1]
      · rw [refPagesFrom, annotImages]
        dsimp only
        rw [firstOccS_append]
        rw [h1.2, (ih (i + 1) _).2]

lemma count_firstOccS (b : List Nat) : ∀ (l : List (Nat × Image)) (seen : List (List Nat)),
    ((firstOccS seen l).1.map (fun x => x.2.bytes)).count b =
      if b ∈ l.map (fun x => x.2.bytes) ∧ b ∉ seen then 1 else 0 := by
  intro l
  induction l with
  | nil => intro seen; simp [firstOccS]
  | cons a l ih =>
      intro seen
      rw [firstOccS]
      by_cases h : a.2.bytes ∈ seen
      · rw [if_pos h, ih seen]
        by_cases hb : b = a.2.bytes
        · subst hb; simp [h]
        · exact if_congr (by simp [hb]) rfl rfl
      · rw [if_neg h]
        dsimp only
        rw [List.map_cons, List.count_cons, ih (a.2.bytes :: seen)]
        by_cases hb : b = a.2.bytes
        · subst hb; simp [h]
        · have hne : ¬((a.2.bytes == b) = true) := by
            simp only [beq_iff_eq]
            exact fun hc => hb hc.symm
          rw [if_neg hne, Nat.add_zero, List.map_cons]
          exact if_congr (by simp [hb]) rfl rfl

lemma annotImages_byte_mem : ∀ (ps : List Page) (i : Nat) (p : Page), p ∈ ps →
    ∀ img ∈ p.images, img.bytes ∈ (annotImages i ps).map (fun x => x.2.bytes) := by
  intro ps
  induction ps with
  | nil => intro i p hp; simp at hp
  | cons q ps ih =>
      intro i p hp img himg
      rw [annotImages, List.map_append]
      rcases List.mem_cons.mp hp with h1 | h1
      · subst h1
        apply List.mem_append_left
        exact List.mem_map.mpr ⟨(i, img), List.mem_map.mpr ⟨img, himg, rfl⟩, rfl⟩
      · exact List.mem_append_right _ (ih (i + 1) p h1 img himg)

/-- C4. For a PDF with N pages the extraction emits at most N text blocks, at
most one per page index, and the ghost page indices of the emitted text
blocks are non-decreasing along the block sequence. -/
theorem text_blocks_bounded_and_ordered (hash : List Nat → Nat) (d : PDFDoc) :
    ((extractAnnot hash d).filter fun pb => pb.2.isText).length ≤ d.length ∧
    (∀ j : Nat,
      (((extractAnnot hash d).filter fun pb => pb.2.isText).filter
          fun pb => pb.1 == j).length ≤ 1) ∧
    List.Pairwise (fun a b => a ≤ b)
      (((extractAnnot hash d).filter fun pb => pb.2.isText).map Prod.fst) := by
  rw [extractAnnot, filter_text_extractPagesFrom hash d 0 []]
  exact ⟨textAnnotsSpec_length d 0, fun j => textAnnotsSpec_page_count d 0 j,
    textAnnotsSpec_pages_mono d 0⟩

/-- C3. The per-page normalization pipeline joins hyphen-broken line breaks
first (exam-ple has its break removed), then replaces remaining newlines
by spaces and collapses space runs afterwards (so a newline followed by a
space becomes one space, not two), and trims; and the extraction emits a
text block for a page exactly when the page normalizes to a non-empty
string, the block carrying that normalized text. -/
theorem normalization_pipeline (hash : List Nat → Nat) (d : PDFDoc) :
    normalizeText ("exam-\nple".toList) = "example".toList ∧
    normalizeText ("a\n b".toList) = "a b".toList ∧
    (∀ pb ∈ extractAnnot hash d, ∀ s, pb.2 = Block.text s →
      s = pageText (d.getD pb.1 ⟨none, []⟩) ∧ s ≠ []) ∧
    (∀ i < d.length, pageText (d.getD i ⟨none, []⟩) ≠ [] →
      (i, Block.text (pageText (d.getD i ⟨none, []⟩))) ∈ extractAnnot hash d) := by
  refine ⟨by decide, by decide, ?_, ?_⟩
  · intro pb hpb s hs
    have htext : pb ∈ (extractAnnot hash d).filter fun x => x.2.isText := by
      apply List.mem_filter.mpr
      exact ⟨hpb, by rw [hs]; rfl⟩
    rw [extractAnnot, filter_text_extractPagesFrom hash d 0 []] at htext
    rcases textAnnotsSpec_mem pb.1 pb.2 d 0 htext with ⟨k, hk1, hk2, hk3, hk4⟩
    have hk0 : pb.1 = k := by omega
    rw [hs] at hk3
    have hse : s = pageText (d.getD k ⟨none, []⟩) := by
      injection hk3
    subst hk0
    exact ⟨hse, by rw [hse]; exact hk4⟩
  · intro i hi hne
    have := textAnnotsSpec_mem_intro d 0 i hi hne
    rw [Nat.zero_add] at this
    rw [← filter_text_extractPagesFrom hash d 0 [], ← extractAnnot] at this
    exact List.mem_of_mem_filter this

/-- Witness for C3: on a one-page document whose raw text is the hyphen
example, the emitted annotated text block is recovered through both
directions of the theorem. -/
theorem normalization_pipeline_witness :
    ((0, Block.text (pageText ⟨some ("exam-\nple".toList), []⟩)) ∈
        extractAnnot (fun b => b.sum) [⟨some ("exam-\nple".toList), []⟩]) ∧
    ("example".toList = pageText (([⟨some ("exam-\nple".toList), []⟩] :
          PDFDoc).getD 0 ⟨none, []⟩) ∧ "example".toList ≠ []) := by
  constructor
  · exact (normalization_pipeline (fun b => b.sum)
      [⟨some ("exam-\nple".toList), []⟩]).2.2.2 0 (by decide) (by decide)
  · exact (normalization_pipeline (fun b => b.sum)
      [⟨some ("exam-\nple".toList), []⟩]).2.2.1
      (0, Block.text ("example".toList)) (by decide) ("example".toList) rfl

/-- C1. When the content hash has no collision among the images of the
document (the best-effort caveat the spec itself raises for the built-in
hash), one extraction run emits the image blocks exactly as the spec-side
first-occurrence filter over the structurally ordered occurrence list with
an initially empty seen set: for each image content occurring anywhere
(once or more), exactly one Image block is emitted, carrying the page
index and position of its first occurrence, and every later duplicate on
the same or a later page is dropped. The seen set is part of no input: it
is created empty inside the run, so a new run on a document containing the
same image emits it again (the count-one conjunct applies to every run). -/
theorem image_dedup_first_occurrence (hash : List Nat → Nat) (d : PDFDoc)
    (hinj : PInj hash ((annotImages 0 d).map (fun x => x.2.bytes))) :
    imageAnnotsOf (extractAnnot hash d) = (firstOccS [] (annotImages 0 d)).1 ∧
    ∀ b ∈ (annotImages 0 d).map (fun x => x.2.bytes),
      ((imageAnnotsOf (extractAnnot hash d)).map (fun x => x.2.bytes)).count b = 1 := by
  have htrans := extractPagesFrom_eq_ref hash _ hinj d 0 [] (by simp)
    (fun p hp img himg => annotImages_byte_mem d 0 p hp img himg)
  have heq : extractAnnot hash d = (refPagesFrom 0 d []).1 := by
    rw [extractAnnot]
    rw [show ([] : List Nat) = (([] : List (List Nat)).map hash) from rfl, htrans]
  have hmain := refPages_imageAnnots d 0 []
  constructor
  · rw [heq]; exact hmain.1
  · intro b hb
    rw [heq, hmain.1, count_firstOccS]
    simp [hb]

/-- Witness for C1: a two-page document where the first image of page 0
reappears on page 1, under an injective-on-the-document hash. -/
theorem image_dedup_first_occurrence_witness :
    imageAnnotsOf (extractAnnot (fun b => b.sum)
        [⟨none, [⟨[1], "png".toList⟩, ⟨[2], "jpg".toList⟩]⟩, ⟨none, [⟨[1], "png".toList⟩]⟩]) =
      (firstOccS [] (annotImages 0
        [⟨none, [⟨[1], "png".toList⟩, ⟨[2], "jpg".toList⟩]⟩, ⟨none, [⟨[1], "png".toList⟩]⟩])).1 ∧
    ((imageAnnotsOf (extractAnnot (fun b => b.sum)
        [⟨none, [⟨[1], "png".toList⟩, ⟨[2], "jpg".toList⟩]⟩, ⟨none, [⟨[1], "png".toList⟩]⟩])).map
      (fun x => x.2.bytes)).count [1] = 1 :=
  ⟨(image_dedup_first_occurrence (fun b => b.sum)
      [⟨none, [⟨[1], "png".toList⟩, ⟨[2], "jpg".toList⟩]⟩, ⟨none, [⟨[1], "png".toList⟩]⟩]
      (by decide)).1,
    (image_dedup_first_occurrence (fun b => b.sum)
      [⟨none, [⟨[1], "png".toList⟩, ⟨[2], "jpg".toList⟩]⟩, ⟨none, [⟨[1], "png".toList⟩]⟩]
      (by decide)).2 [1] (by decide)⟩

end PDFBot
